import Mathlib

/-!
Verification of the `tide-validator` middleware (`src/lib.rs`).

The development embeds the validator registry (`ValidatorMiddleware`) and its
dispatch loop (`Middleware::handle`) shallowly:

* `HttpField` mirrors the Rust enum of the same name.
* A `Request` is the tuple of extraction capabilities the middleware consumes
  from tide: path-parameter lookup (fallible, `ctx.param(..)`), whole
  query-string decoding (`ctx.query::<HashMap<String,String>>()`), header
  lookup (last value, `ctx.header(..)`) and cookie lookup (`ctx.cookie(..)`).
* The registry is an association list from `HttpField` to the ordered list of
  validators, standing for the `HashMap<HttpField, Vec<Arc<dyn Fn ...>>>`;
  `addValidator` mirrors the `entry(..).and_modify(push).or_insert(vec![..])`
  idiom, `withValidators` the bulk loop.
* `handleLoop` mirrors the body of `Middleware::handle`: it walks the entries,
  threads the lazily-populated query-parameter cache, and either returns an
  early `Response` (validation failure, query-decode failure, serialization
  failure) or finishes so that `handle` can run the next pipeline stage.
  To make invocation order and caching observable, the loop also returns a
  trace of `Event`s: one lookup event per per-validator extraction, one
  `queryDecode` event per decoding of the whole query string, one `invoke`
  event (selector, position, handed value) per validator call, and `runNext`
  when control is delegated downstream.

Serialization of the caller-chosen error type `E` (serde's `body_json`) is a
parameter `ser : E → Except String String`: `Except.ok` gives the JSON body,
`Except.error` the formatted serde error used in the fallback 500 body.
-/

namespace TideValidator

/-- The `HttpField` enum of the source: selector for one inspectable unit of a
request, a tag (path parameter / query parameter / header / cookie) together
with the field's name. Equality is by (tag, name) pair, as in the Rust
`#[derive(Hash, Eq, PartialEq)]`. -/
inductive HttpField where
  | Param (name : String)
  | QueryParam (name : String)
  | Header (name : String)
  | Cookie (name : String)
deriving DecidableEq

/-- The name carried by a selector (the string handed to validators). -/
def HttpField.name : HttpField → String
  | .Param n => n
  | .QueryParam n => n
  | .Header n => n
  | .Cookie n => n

/-- The word used in the serialization-failure diagnostic for each selector
kind, exactly as in the four `format!` strings of `handle`. -/
def kindWord : HttpField → String
  | .Param _ => "parameter"
  | .QueryParam _ => "query parameter"
  | .Header _ => "header"
  | .Cookie _ => "cookie"

/-- An HTTP response: status code plus body, the observable output of the
middleware (`Response::new(status).body_*`). -/
structure Response where
  status : Nat
  body : String
deriving DecidableEq

/-- The decoded query-string mapping (`HashMap<String, String>` in the
source), as an association list with distinct keys. -/
abbrev QMap := List (String × String)

/-- Lookup in the decoded query mapping (`query_parameters.get(name)`). -/
def qlookup : QMap → String → Option String
  | [], _ => none
  | (k, v) :: rest, nm => if k = nm then some v else qlookup rest nm

/-- The extraction interface the middleware consumes from the request:
`param` is `ctx.param(name)` (a `Result`, failure meaning the parameter is
absent or unreadable), `queryResult` is `ctx.query::<HashMap<_,_>>()` for the
whole query string, `header` is the last value of the named header if present,
`cookie` the named cookie's value if present. -/
structure Request where
  param : String → Except String String
  queryResult : Except String QMap
  header : String → Option String
  cookie : String → Option String

/-- A validator: the caller-supplied closure
`Fn(&str, Option<&str>) -> Result<(), E>`. -/
abbrev Validator (E : Type) := String → Option String → Except E Unit

/-- The registry: the `validators: HashMap<HttpField, Vec<..>>` field of
`ValidatorMiddleware`, embedded as an association list whose order stands for
the map's iteration order. -/
abbrev Registry (E : Type) := List (HttpField × List (Validator E))

/-- Observable events of one `handle` run: per-validator field extraction
(`paramLookup`/`queryLookup`/`headerLookup`/`cookieLookup`), decoding of the
whole query string (`queryDecode`), a validator invocation `invoke selector
position value`, and delegation to the next stage (`runNext`). -/
inductive Event where
  | paramLookup (name : String)
  | queryDecode
  | queryLookup (name : String)
  | headerLookup (name : String)
  | cookieLookup (name : String)
  | invoke (field : HttpField) (idx : Nat) (value : Option String)
  | runNext
deriving DecidableEq

/-- Boolean test for "is an invocation of a validator of this selector". -/
def isInvokeOf (field : HttpField) : Event → Bool
  | Event.invoke f _ _ => decide (f = field)
  | _ => false

/-- Boolean test for "is a query-parameter selector". -/
def isQuerySelector : HttpField → Bool
  | HttpField.QueryParam _ => true
  | _ => false

/-- The response built from a failing validator's error: on success of
`body_json(&err)` a `BadRequest` (400) carrying the serialized error, and on
serialization failure the `unwrap_or_else` fallback — an
`InternalServerError` (500) whose body is the corresponding `format!` string
(selector kind word, selector name, serde error). -/
def failureResponse {E : Type} (ser : E → Except String String)
    (field : HttpField) (e : E) : Response :=
  match ser e with
  | Except.ok body => { status := 400, body := body }
  | Except.error err =>
      { status := 500
        body := "cannot serialize your " ++ kindWord field ++
          " validator for '" ++ field.name ++ "' error : " ++ err }

/-- The inner `for validator in validators` loop of one selector: each
iteration re-performs the field extraction (recorded as `lkEvs`), invokes the
validator on `(name, value)`, and stops at the first error. Returns the first
error (if any) and the trace of this loop. `idx` numbers the validators in
registration order. -/
def runChain {E : Type} (field : HttpField) (lkEvs : List Event)
    (value : Option String) : List (Validator E) → Nat → Option E × List Event
  | [], _ => (none, [])
  | v :: rest, idx =>
    match v field.name value with
    | Except.error e => (some e, lkEvs ++ [Event.invoke field idx value])
    | Except.ok _ =>
      let r := runChain field lkEvs value rest (idx + 1)
      (r.1, lkEvs ++ (Event.invoke field idx value :: r.2))

/-- The body of `Middleware::handle`: iterate the registry entries, threading
`cache` (the `query_parameters: Option<HashMap<String,String>>` local).
Returns `Except.error resp` when the loop returns an early response
(validation failure or query-decode failure) and `Except.ok cache` when every
validator passed, together with the event trace. -/
def handleLoop {E : Type} (ser : E → Except String String) (req : Request) :
    Registry E → Option QMap → Except Response (Option QMap) × List Event
  | [], cache => (Except.ok cache, [])
  | (HttpField.Param nm, vs) :: rest, cache =>
    match runChain (HttpField.Param nm) [Event.paramLookup nm]
        (req.param nm).toOption vs 0 with
    | (some e, evs) =>
        (Except.error (failureResponse ser (HttpField.Param nm) e), evs)
    | (none, evs) =>
      let r := handleLoop ser req rest cache
      (r.1, evs ++ r.2)
  | (HttpField.QueryParam nm, vs) :: rest, cache =>
    match (match cache with
           | some qps => (Except.ok qps, ([] : List Event))
           | none => (req.queryResult, [Event.queryDecode])) with
    | (Except.error err, devs) =>
        (Except.error
          { status := 500, body := "cannot read query parameters: " ++ err },
         devs)
    | (Except.ok qps, devs) =>
      match runChain (HttpField.QueryParam nm) [Event.queryLookup nm]
          (qlookup qps nm) vs 0 with
      | (some e, evs) =>
          (Except.error (failureResponse ser (HttpField.QueryParam nm) e),
           devs ++ evs)
      | (none, evs) =>
        let r := handleLoop ser req rest (some qps)
        (r.1, devs ++ (evs ++ r.2))
  | (HttpField.Header nm, vs) :: rest, cache =>
    match runChain (HttpField.Header nm) [Event.headerLookup nm]
        (req.header nm) vs 0 with
    | (some e, evs) =>
        (Except.error (failureResponse ser (HttpField.Header nm) e), evs)
    | (none, evs) =>
      let r := handleLoop ser req rest cache
      (r.1, evs ++ r.2)
  | (HttpField.Cookie nm, vs) :: rest, cache =>
    match runChain (HttpField.Cookie nm) [Event.cookieLookup nm]
        (req.cookie nm) vs 0 with
    | (some e, evs) =>
        (Except.error (failureResponse ser (HttpField.Cookie nm) e), evs)
    | (none, evs) =>
      let r := handleLoop ser req rest cache
      (r.1, evs ++ r.2)

/-- `Middleware::handle`: run the loop starting with an unpopulated query
cache; on an early response return it, otherwise delegate to the next pipeline
stage (`next.run(ctx)`) with the unmodified request. -/
def handle {E : Type} (ser : E → Except String String) (registry : Registry E)
    (req : Request) (next : Request → Response) : Response × List Event :=
  match handleLoop ser req registry none with
  | (Except.error resp, evs) => (resp, evs)
  | (Except.ok _, evs) => (next req, evs ++ [Event.runNext])

/-- `ValidatorMiddleware::add_validator`: `self.validators.entry(k)
.and_modify(|e| e.push(v)).or_insert(vec![v])` — append to the existing
sequence of `k`, or bind `k` to the singleton `[v]` when absent. -/
def addValidator {E : Type} (m : Registry E) (k : HttpField)
    (v : Validator E) : Registry E :=
  match m with
  | [] => [(k, [v])]
  | (k2, vs) :: rest =>
    if k2 = k then (k2, vs ++ [v]) :: rest
    else (k2, vs) :: addValidator rest k v

/-- `ValidatorMiddleware::with_validators`: the bulk loop
`for (k, v) in validators { self.add_validator(k, v) }; self`. -/
def withValidators {E : Type} (m : Registry E)
    (entries : List (HttpField × Validator E)) : Registry E :=
  entries.foldl (fun acc kv => addValidator acc kv.1 kv.2) m

/-- Modelled from the spec (for the refinement claim about
`with_validators`): "for every entry, behaves as `addValidator`" — call
`addValidator` once for each entry in turn. -/
def addAll {E : Type} (m : Registry E) :
    List (HttpField × Validator E) → Registry E
  | [] => m
  | kv :: rest => addAll (addValidator m kv.1 kv.2) rest

/-- Association lookup in the registry (the `HashMap` lookup by selector). -/
def lookupSeq {E : Type} (m : Registry E) (k : HttpField) :
    Option (List (Validator E)) :=
  match m with
  | [] => none
  | (k2, vs) :: rest => if k2 = k then some vs else lookupSeq rest k

/-- The validator sequence registered for a selector, `[]` when absent. -/
def seqOf {E : Type} (m : Registry E) (k : HttpField) : List (Validator E) :=
  (lookupSeq m k).getD []

/-- The source of decoded query parameters seen at some point of the loop:
the cache when already populated, otherwise the request's own decoding. -/
def cacheSource (cache : Option QMap) (req : Request) : Except String QMap :=
  match cache with
  | some qps => Except.ok qps
  | none => req.queryResult

/-- The value `handle` extracts for a selector, given the cache state when the
selector's entry is reached. -/
def extractValue (req : Request) (cache : Option QMap) : HttpField → Option String
  | HttpField.Param n => (req.param n).toOption
  | HttpField.QueryParam n =>
    match cacheSource cache req with
    | Except.ok qps => qlookup qps n
    | Except.error _ => none
  | HttpField.Header n => req.header n
  | HttpField.Cookie n => req.cookie n

/-- The lookup event recorded for each per-validator extraction of a
selector's field. -/
def lkEv : HttpField → Event
  | HttpField.Param n => Event.paramLookup n
  | HttpField.QueryParam n => Event.queryLookup n
  | HttpField.Header n => Event.headerLookup n
  | HttpField.Cookie n => Event.cookieLookup n

/-- The cache transition performed on reaching a selector's entry: only a
query-parameter selector touches the cache, decoding the query string when the
cache is still unpopulated. Returns the outcome (new cache, or the decode
error) and the decode events. -/
def cacheStep (cache : Option QMap) (req : Request) :
    HttpField → Except String (Option QMap) × List Event
  | HttpField.QueryParam _ =>
    match cache with
    | some qps => (Except.ok (some qps), [])
    | none =>
      match req.queryResult with
      | Except.error err => (Except.error err, [Event.queryDecode])
      | Except.ok qps => (Except.ok (some qps), [Event.queryDecode])
  | _ => (Except.ok cache, [])

/-- Identity serializer over `String` errors, for concrete runs. -/
def serId : String → Except String String := fun s => Except.ok s

/-- A serializer that always fails, for concrete runs of the fallback path. -/
def serFail : String → Except String String := fun _ => Except.error "nope"

/-- A validator rejecting everything with error `"bad"`. -/
def vFail : Validator String := fun _ _ => Except.error "bad"

/-- A validator accepting everything. -/
def vOk : Validator String := fun _ _ => Except.ok ()

/-- A concrete request: no path parameters, empty (but well-formed) query
string, no headers, no cookies. -/
def reqA : Request :=
  { param := fun _ => Except.error "missing"
    queryResult := Except.ok []
    header := fun _ => none
    cookie := fun _ => none }

/-- A concrete request whose query string fails to decode. -/
def reqBadQuery : Request :=
  { param := fun _ => Except.error "missing"
    queryResult := Except.error "decode failure"
    header := fun _ => none
    cookie := fun _ => none }

/-- A concrete downstream stage answering 200 to everything. -/
def nextOk : Request → Response := fun _ => { status := 200, body := "downstream" }

/-- Registry used to refute the "decoded exactly once" reading of the query
cache claim: a failing path-parameter validator listed before two
query-parameter selectors. -/
def cregC4 : Registry String :=
  [(HttpField.Param "a", [vFail]),
   (HttpField.QueryParam "x", [vOk]),
   (HttpField.QueryParam "y", [vOk])]

/-! ### Lemmas about the inner per-selector loop -/

/-- Every event of one selector's inner loop is either one of the lookup
events or an invocation of that selector's validators on the extracted
value, at an index at least the starting one. -/
lemma runChain_events {E : Type} {field : HttpField} {lkEvs : List Event}
    {value : Option String} {vs : List (Validator E)} {idx : Nat} {ev : Event}
    (h : ev ∈ (runChain field lkEvs value vs idx).2) :
    ev ∈ lkEvs ∨ ∃ k, idx ≤ k ∧ ev = Event.invoke field k value := by
  induction vs generalizing idx with
  | nil => simp [runChain] at h
  | cons v rest ih =>
    simp only [runChain] at h
    cases hv : v field.name value with
    | error e =>
      rw [hv] at h
      simp only [List.mem_append, List.mem_singleton] at h
      rcases h with h | h
      · exact Or.inl h
      · exact Or.inr ⟨idx, Nat.le_refl idx, h⟩
    | ok u =>
      rw [hv] at h
      simp only [List.mem_append, List.mem_cons] at h
      rcases h with h | h | h
      · exact Or.inl h
      · exact Or.inr ⟨idx, Nat.le_refl idx, h⟩
      · rcases ih h with h2 | ⟨k, hk, he⟩
        · exact Or.inl h2
        · exact Or.inr ⟨k, Nat.le_of_succ_le hk, he⟩

/-- Specialization of `runChain_events` to a single non-invoke lookup
event, phrased on an equation for the loop's result. -/
lemma runChain_events_simple {E : Type} {field : HttpField} {lk : Event}
    {value : Option String} {vs : List (Validator E)} {idx : Nat}
    {o : Option E} {evs : List Event} {ev : Event}
    (hrc : runChain field [lk] value vs idx = (o, evs)) (hev : ev ∈ evs) :
    ev = lk ∨ ∃ k, ev = Event.invoke field k value := by
  have h : ev ∈ (runChain field [lk] value vs idx).2 := by rw [hrc]; exact hev
  rcases runChain_events h with h | ⟨k, _, he⟩
  · simp only [List.mem_singleton] at h
    exact Or.inl h
  · exact Or.inr ⟨k, he⟩

/-- If every validator of the chain accepts the value, the loop reports no
error. -/
lemma runChain_all_ok {E : Type} {field : HttpField} {lkEvs : List Event}
    {value : Option String} :
    ∀ (vs : List (Validator E)) (idx : Nat),
      (∀ w ∈ vs, w field.name value = Except.ok ()) →
      (runChain field lkEvs value vs idx).1 = none := by
  intro vs
  induction vs with
  | nil => intro idx hok; rfl
  | cons v rest ih =>
    intro idx hok
    have hv : v field.name value = Except.ok () := hok v (by simp)
    simp only [runChain, hv]
    exact ih (idx + 1) (fun w hw => hok w (by simp [hw]))

/-- An error reported by the chain is the error of one of its validators on
the extracted value. -/
lemma runChain_error_mem {E : Type} {field : HttpField} {lkEvs : List Event}
    {value : Option String} :
    ∀ (vs : List (Validator E)) (idx : Nat) (e : E),
      (runChain field lkEvs value vs idx).1 = some e →
      ∃ w, w ∈ vs ∧ w field.name value = Except.error e := by
  intro vs
  induction vs with
  | nil => intro idx e h; simp [runChain] at h
  | cons v rest ih =>
    intro idx e h
    simp only [runChain] at h
    cases hv : v field.name value with
    | error e2 =>
      rw [hv] at h
      simp only [Option.some.injEq] at h
      exact ⟨v, List.mem_cons_self v rest, by rw [hv, h]⟩
    | ok u =>
      rw [hv] at h
      simp only at h
      obtain ⟨w, hw, hwe⟩ := ih (idx + 1) e h
      exact ⟨w, by simp [hw], hwe⟩

/-- First-failure behaviour of one selector's loop: with every validator
before `v` accepting and `v` rejecting with `e`, the loop stops at `v` with
error `e`, and every invocation it performed is of this selector, at a
position no further than `v`'s, on the same extracted value. -/
lemma runChain_first_failure {E : Type} {field : HttpField} {lk : Event}
    {value : Option String} {vs2 : List (Validator E)} {v : Validator E} {e : E}
    (hlk : ∀ f k val, lk ≠ Event.invoke f k val)
    (hfail : v field.name value = Except.error e) :
    ∀ (vs1 : List (Validator E)) (idx : Nat),
      (∀ w ∈ vs1, w field.name value = Except.ok ()) →
      ∃ evs, runChain field [lk] value (vs1 ++ v :: vs2) idx = (some e, evs) ∧
        ∀ f k val, Event.invoke f k val ∈ evs →
          f = field ∧ k ≤ idx + vs1.length ∧ val = value := by
  intro vs1
  induction vs1 with
  | nil =>
    intro idx hok
    refine ⟨[lk] ++ [Event.invoke field idx value], ?_, ?_⟩
    · simp [runChain, hfail]
    · intro f k val hmem
      simp only [List.singleton_append, List.mem_cons, List.mem_singleton,
        List.not_mem_nil, or_false] at hmem
      rcases hmem with hmem | hmem
      · exact absurd hmem.symm (hlk f k val)
      · simp only [Event.invoke.injEq] at hmem
        obtain ⟨h1, h2, h3⟩ := hmem
        exact ⟨h1, by omega, h3⟩
  | cons w rest ih =>
    intro idx hok
    have hw : w field.name value = Except.ok () := hok w (by simp)
    obtain ⟨evs, hrun, hchar⟩ := ih (idx + 1) (fun u hu => hok u (by simp [hu]))
    refine ⟨[lk] ++ (Event.invoke field idx value :: evs), ?_, ?_⟩
    · simp only [List.cons_append, runChain, hw, List.append_eq]
      rw [hrun]
    · intro f k val hmem
      simp only [List.singleton_append, List.mem_cons] at hmem
      rcases hmem with hmem | hmem | hmem
      · exact absurd hmem.symm (hlk f k val)
      · simp only [Event.invoke.injEq] at hmem
        obtain ⟨h1, h2, h3⟩ := hmem
        exact ⟨h1, by simp [h2], h3⟩
      · obtain ⟨h1, h2, h3⟩ := hchar f k val hmem
        refine ⟨h1, ?_, h3⟩
        simp only [List.length_cons] at h2 ⊢
        omega

/-! ### Uniform description of one step of the dispatch loop -/

/-- Lookup events are never invocation events. -/
lemma lkEv_ne_invoke (field : HttpField) :
    ∀ (f : HttpField) (k : Nat) (val : Option String),
      lkEv field ≠ Event.invoke f k val := by
  intro f k val
  cases field <;> simp [lkEv]

/-- Lookup events are never the query-decode event. -/
lemma lkEv_ne_queryDecode (field : HttpField) : lkEv field ≠ Event.queryDecode := by
  cases field <;> simp [lkEv]

/-- The three possible outcomes of the cache transition: untouched cache with
no events (any selector finding the cache already usable), successful decode
populating the cache, or a failing decode — the latter two only from an
unpopulated cache, each recording exactly one `queryDecode` event. -/
lemma cacheStep_spec (cache : Option QMap) (req : Request) (field : HttpField) :
    cacheStep cache req field = (Except.ok cache, []) ∨
    (∃ qps, cacheStep cache req field =
        (Except.ok (some qps), [Event.queryDecode]) ∧ cache = none) ∨
    (∃ err, cacheStep cache req field =
        (Except.error err, [Event.queryDecode]) ∧ cache = none) := by
  cases field with
  | QueryParam n =>
    cases cache with
    | some qps => exact Or.inl rfl
    | none =>
      cases hqr : req.queryResult with
      | error err => exact Or.inr (Or.inr ⟨err, by simp [cacheStep, hqr], rfl⟩)
      | ok qps => exact Or.inr (Or.inl ⟨qps, by simp [cacheStep, hqr], rfl⟩)
  | Param n => exact Or.inl rfl
  | Header n => exact Or.inl rfl
  | Cookie n => exact Or.inl rfl

/-- One step of `handleLoop`, written uniformly over the four selector kinds:
perform the cache transition, then run the selector's validator chain on the
extracted value, then either stop with the failure response or recurse on the
remaining entries with the stepped cache. -/
lemma handleLoop_cons {E : Type} (ser : E → Except String String) (req : Request)
    (field : HttpField) (vs : List (Validator E)) (rest : Registry E)
    (cache : Option QMap) :
    handleLoop ser req ((field, vs) :: rest) cache =
      match cacheStep cache req field with
      | (Except.error err, devs) =>
        (Except.error
          { status := 500, body := "cannot read query parameters: " ++ err },
         devs)
      | (Except.ok cache2, devs) =>
        match runChain field [lkEv field] (extractValue req cache field) vs 0 with
        | (some e, evs) =>
            (Except.error (failureResponse ser field e), devs ++ evs)
        | (none, evs) =>
          let r := handleLoop ser req rest cache2
          (r.1, devs ++ (evs ++ r.2)) := by
  cases field with
  | Param n =>
    simp only [handleLoop, cacheStep, lkEv, extractValue]
    rcases hrc : runChain (E := E) (HttpField.Param n) [Event.paramLookup n]
        (req.param n).toOption vs 0 with ⟨o, evs⟩
    cases o <;> simp
  | QueryParam n =>
    cases cache with
    | some qps =>
      simp only [handleLoop, cacheStep, lkEv, extractValue, cacheSource]
    | none =>
      cases hqr : req.queryResult with
      | error err =>
        simp only [handleLoop, cacheStep, lkEv, extractValue, cacheSource, hqr]
      | ok qps =>
        simp only [handleLoop, cacheStep, lkEv, extractValue, cacheSource, hqr]
  | Header n =>
    simp only [handleLoop, cacheStep, lkEv, extractValue]
    rcases hrc : runChain (E := E) (HttpField.Header n) [Event.headerLookup n]
        (req.header n) vs 0 with ⟨o, evs⟩
    cases o <;> simp
  | Cookie n =>
    simp only [handleLoop, cacheStep, lkEv, extractValue]
    rcases hrc : runChain (E := E) (HttpField.Cookie n) [Event.cookieLookup n]
        (req.cookie n) vs 0 with ⟨o, evs⟩
    cases o <;> simp


/-- One-step rewrite: the cache transition fails (query decode failure). -/
lemma handleLoop_cons_err {E : Type} {ser : E → Except String String}
    {req : Request} {field : HttpField} {vs : List (Validator E)}
    {rest : Registry E} {cache : Option QMap} {err : String} {devs : List Event}
    (hcs : cacheStep cache req field = (Except.error err, devs)) :
    handleLoop ser req ((field, vs) :: rest) cache =
      (Except.error
        { status := 500, body := "cannot read query parameters: " ++ err },
       devs) := by
  rw [handleLoop_cons, hcs]

/-- One-step rewrite: the cache transition succeeds and the selector's chain
stops at a failing validator. -/
lemma handleLoop_cons_fail {E : Type} {ser : E → Except String String}
    {req : Request} {field : HttpField} {vs : List (Validator E)}
    {rest : Registry E} {cache cache2 : Option QMap} {devs evs : List Event}
    {e : E}
    (hcs : cacheStep cache req field = (Except.ok cache2, devs))
    (hrc : runChain field [lkEv field] (extractValue req cache field) vs 0 =
      (some e, evs)) :
    handleLoop ser req ((field, vs) :: rest) cache =
      (Except.error (failureResponse ser field e), devs ++ evs) := by
  rw [handleLoop_cons, hcs, hrc]

/-- One-step rewrite: the cache transition succeeds and every validator of the
selector accepts; the loop continues with the stepped cache. -/
lemma handleLoop_cons_ok {E : Type} {ser : E → Except String String}
    {req : Request} {field : HttpField} {vs : List (Validator E)}
    {rest : Registry E} {cache cache2 : Option QMap} {devs evs : List Event}
    (hcs : cacheStep cache req field = (Except.ok cache2, devs))
    (hrc : runChain field [lkEv field] (extractValue req cache field) vs 0 =
      (none, evs)) :
    handleLoop ser req ((field, vs) :: rest) cache =
      ((handleLoop ser req rest cache2).1,
        devs ++ (evs ++ (handleLoop ser req rest cache2).2)) := by
  rw [handleLoop_cons, hcs, hrc]

/-! ### Global properties of the dispatch loop -/

/-- Every event of the loop's trace is distinct from `runNext`, and every
invocation it records is of a selector registered in the entries it walked. -/
lemma handleLoop_events {E : Type} {ser : E → Except String String}
    {req : Request} :
    ∀ (entries : Registry E) (cache : Option QMap) (ev : Event),
      ev ∈ (handleLoop ser req entries cache).2 →
      ev ≠ Event.runNext ∧
        ∀ f k val, ev = Event.invoke f k val → f ∈ entries.map Prod.fst := by
  intro entries
  induction entries with
  | nil => intro cache ev h; simp [handleLoop] at h
  | cons entry rest ih =>
    intro cache ev h
    obtain ⟨field, vs⟩ := entry
    have hlkcase : ∀ {o : Option E} {evs : List Event},
        runChain field [lkEv field] (extractValue req cache field) vs 0 =
          (o, evs) →
        ev ∈ evs →
        ev ≠ Event.runNext ∧
          ∀ f k val, ev = Event.invoke f k val →
            f ∈ ((field, vs) :: rest).map Prod.fst := by
      intro o evs hrc hev
      rcases runChain_events_simple hrc hev with he | ⟨k, he⟩
      · subst he
        refine ⟨?_, ?_⟩
        · cases field <;> simp [lkEv]
        · intro f k2 val heq
          exact absurd heq (lkEv_ne_invoke field f k2 val)
      · subst he
        refine ⟨by simp, ?_⟩
        intro f k2 val heq
        simp only [Event.invoke.injEq] at heq
        rw [← heq.1]
        simp
    rcases cacheStep_spec cache req field with hcs | ⟨qps, hcs, hnone⟩ |
        ⟨err, hcs, hnone⟩
    · rcases hrc : runChain field [lkEv field]
          (extractValue req cache field) vs 0 with ⟨o, evs⟩
      cases o with
      | some e =>
        rw [handleLoop_cons_fail hcs hrc] at h
        simp only [List.nil_append] at h
        exact hlkcase hrc h
      | none =>
        rw [handleLoop_cons_ok hcs hrc] at h
        simp only [List.nil_append, List.mem_append] at h
        rcases h with h | h
        · exact hlkcase hrc h
        · obtain ⟨hne, hf⟩ := ih cache ev h
          exact ⟨hne, fun f k val heq =>
            List.mem_cons_of_mem _ (hf f k val heq)⟩
    · rcases hrc : runChain field [lkEv field]
          (extractValue req cache field) vs 0 with ⟨o, evs⟩
      cases o with
      | some e =>
        rw [handleLoop_cons_fail hcs hrc] at h
        simp only [List.singleton_append, List.mem_cons] at h
        rcases h with h | h
        · subst h
          exact ⟨by simp, by intro f k val heq; simp at heq⟩
        · exact hlkcase hrc h
      | none =>
        rw [handleLoop_cons_ok hcs hrc] at h
        simp only [List.singleton_append, List.mem_cons, List.mem_append] at h
        rcases h with h | h | h
        · subst h
          exact ⟨by simp, by intro f k val heq; simp at heq⟩
        · exact hlkcase hrc h
        · obtain ⟨hne, hf⟩ := ih (some qps) ev h
          exact ⟨hne, fun f k val heq =>
            List.mem_cons_of_mem _ (hf f k val heq)⟩
    · rw [handleLoop_cons_err hcs] at h
      simp only [List.mem_singleton] at h
      subst h
      exact ⟨by simp, by intro f k val heq; simp at heq⟩

/-- Appending entries: if the loop walks `xs` without failing, the loop on
`xs ++ ys` continues into `ys` with the stepped cache, prefixing the trace of
`xs`. -/
lemma handleLoop_append_ok {E : Type} {ser : E → Except String String}
    {req : Request} :
    ∀ (xs : Registry E) (cache cacheE : Option QMap) (evs0 : List Event)
      (ys : Registry E),
      handleLoop ser req xs cache = (Except.ok cacheE, evs0) →
      handleLoop ser req (xs ++ ys) cache =
        ((handleLoop ser req ys cacheE).1,
          evs0 ++ (handleLoop ser req ys cacheE).2) := by
  intro xs
  induction xs with
  | nil =>
    intro cache cacheE evs0 ys h
    simp only [handleLoop, Prod.mk.injEq, Except.ok.injEq] at h
    obtain ⟨h1, h2⟩ := h
    subst h1
    subst h2
    simp
  | cons entry rest ih =>
    intro cache cacheE evs0 ys h
    obtain ⟨field, vs⟩ := entry
    rcases hcs : cacheStep cache req field with ⟨cr, devs⟩
    cases cr with
    | error err =>
      rw [handleLoop_cons_err hcs] at h
      simp at h
    | ok cache2 =>
      rcases hrc : runChain field [lkEv field]
          (extractValue req cache field) vs 0 with ⟨o, evs⟩
      cases o with
      | some e =>
        rw [handleLoop_cons_fail hcs hrc] at h
        simp at h
      | none =>
        rw [handleLoop_cons_ok hcs hrc] at h
        rcases hrest : handleLoop ser req rest cache2 with ⟨r1, r2⟩
        rw [hrest] at h
        simp only [Prod.mk.injEq] at h
        obtain ⟨h1, h2⟩ := h
        subst h1
        rw [List.cons_append, handleLoop_cons_ok hcs hrc,
          ih cache2 cacheE r2 ys hrest]
        simp [← h2, List.append_assoc]

/-- The whole query string is decoded at most once per run of the loop, and
never when the cache is already populated. -/
lemma handleLoop_queryDecode_count {E : Type} {ser : E → Except String String}
    {req : Request} :
    ∀ (entries : Registry E) (cache : Option QMap),
      (handleLoop ser req entries cache).2.countP
          (fun ev => decide (ev = Event.queryDecode)) ≤
        (if cache.isSome then 0 else 1) := by
  intro entries
  induction entries with
  | nil => intro cache; simp [handleLoop]
  | cons entry rest ih =>
    intro cache
    obtain ⟨field, vs⟩ := entry
    rcases hrc : runChain field [lkEv field]
        (extractValue req cache field) vs 0 with ⟨o, evs⟩
    have hevs : evs.countP (fun ev => decide (ev = Event.queryDecode)) = 0 := by
      rw [List.countP_eq_zero]
      intro ev hev
      rcases runChain_events_simple hrc hev with he | ⟨k, he⟩ <;> subst he
      · simpa using lkEv_ne_queryDecode field
      · simp
    rcases cacheStep_spec cache req field with hcs | ⟨qps, hcs, hnone⟩ |
        ⟨err, hcs, hnone⟩
    · cases o with
      | some e =>
        rw [handleLoop_cons_fail hcs hrc]
        simp [hevs]
      | none =>
        rw [handleLoop_cons_ok hcs hrc]
        have := ih cache
        simp only [List.nil_append, List.countP_append, hevs]
        omega
    · subst hnone
      cases o with
      | some e =>
        rw [handleLoop_cons_fail hcs hrc]
        simp [List.countP_append, hevs, List.countP_cons]
      | none =>
        rw [handleLoop_cons_ok hcs hrc]
        have h2 := ih (some qps)
        simp only [Option.isSome_some, if_true] at h2
        have h0 : (handleLoop ser req rest (some qps)).2.countP
            (fun ev => decide (ev = Event.queryDecode)) = 0 := Nat.le_zero.mp h2
        simp only [List.singleton_append, List.countP_append, hevs, h0,
          List.countP_cons, Option.isSome_none]
        simp
    · subst hnone
      rw [handleLoop_cons_err hcs]
      simp

/-- Processing the entry of a selector whose chain has a first failing
validator `v` (everything before `v` accepts): the loop stops with `v`'s
failure response, and every invocation in its trace is of this selector, at a
position no further than `v`'s, on the extracted value. Requires the decoded
query mapping to be available when the selector is a query parameter (the
claim's hypothesis that the failure comes from a validator, not from query
decoding). -/
lemma handleLoop_cons_failure {E : Type} (ser : E → Except String String)
    (vs2 : List (Validator E)) (post : Registry E)
    {req : Request} {field : HttpField} {vs1 : List (Validator E)}
    {v : Validator E} {e : E} {cache : Option QMap}
    (hq : ∀ n, field = HttpField.QueryParam n →
      ∃ qps, cacheSource cache req = Except.ok qps)
    (hok : ∀ w ∈ vs1, w field.name (extractValue req cache field) = Except.ok ())
    (hfail : v field.name (extractValue req cache field) = Except.error e) :
    ∃ evs, handleLoop ser req ((field, vs1 ++ v :: vs2) :: post) cache =
        (Except.error (failureResponse ser field e), evs) ∧
      ∀ f k val, Event.invoke f k val ∈ evs →
        f = field ∧ k ≤ vs1.length ∧ val = extractValue req cache field := by
  have hrf : ∃ evs,
      runChain field [lkEv field] (extractValue req cache field)
        (vs1 ++ v :: vs2) 0 = (some e, evs) ∧
      ∀ f k val, Event.invoke f k val ∈ evs →
        f = field ∧ k ≤ 0 + vs1.length ∧ val = extractValue req cache field :=
    runChain_first_failure (lkEv_ne_invoke field) hfail vs1 0 hok
  obtain ⟨evs1, hrun, hchar⟩ := hrf
  have hstep : ∃ cache2 devs,
      cacheStep cache req field = (Except.ok cache2, devs) ∧
      ∀ ev ∈ devs, ev = Event.queryDecode := by
    cases field with
    | QueryParam n =>
      cases cache with
      | some qps => exact ⟨some qps, [], rfl, by simp⟩
      | none =>
        obtain ⟨qps, hqp⟩ := hq n rfl
        have hqr : req.queryResult = Except.ok qps := hqp
        exact ⟨some qps, [Event.queryDecode], by simp [cacheStep, hqr], by simp⟩
    | Param n => exact ⟨cache, [], rfl, by simp⟩
    | Header n => exact ⟨cache, [], rfl, by simp⟩
    | Cookie n => exact ⟨cache, [], rfl, by simp⟩
  obtain ⟨cache2, devs, hcs, hdevs⟩ := hstep
  refine ⟨devs ++ evs1, handleLoop_cons_fail hcs hrun, ?_⟩
  intro f k val hmem
  rcases List.mem_append.mp hmem with hmem | hmem
  · have := hdevs _ hmem
    simp at this
  · have h2 := hchar f k val hmem
    exact ⟨h2.1, by simpa using h2.2.1, h2.2.2⟩

/-- When every validator of a chain accepts, the chain's trace contains one
lookup event per validator (the field is re-extracted at every iteration). -/
lemma runChain_count_lookup {E : Type} {field : HttpField} {lk : Event}
    {value : Option String}
    (hlk : ∀ f k val, lk ≠ Event.invoke f k val) :
    ∀ (vs : List (Validator E)) (idx : Nat),
      (∀ w ∈ vs, w field.name value = Except.ok ()) →
      (runChain field [lk] value vs idx).2.countP
        (fun ev => decide (ev = lk)) = vs.length := by
  intro vs
  induction vs with
  | nil => intro idx hok; simp [runChain]
  | cons w rest ih =>
    intro idx hok
    have hw : w field.name value = Except.ok () := hok w (by simp)
    have hinv : decide (Event.invoke field idx value = lk) = false := by
      simp only [decide_eq_false_iff_not]
      intro hh
      exact hlk field idx value hh.symm
    simp only [runChain, hw, List.singleton_append, List.countP_cons,
      List.length_cons]
    rw [ih (idx + 1) (fun u hu => hok u (by simp [hu]))]
    simp [hinv]

/-- When every validator of a chain accepts, the chain's trace contains one
invocation event per validator. -/
lemma runChain_count_invoke {E : Type} {field : HttpField} {lk : Event}
    {value : Option String}
    (hlk : isInvokeOf field lk = false) :
    ∀ (vs : List (Validator E)) (idx : Nat),
      (∀ w ∈ vs, w field.name value = Except.ok ()) →
      (runChain field [lk] value vs idx).2.countP (isInvokeOf field) =
        vs.length := by
  intro vs
  induction vs with
  | nil => intro idx hok; simp [runChain]
  | cons w rest ih =>
    intro idx hok
    have hw : w field.name value = Except.ok () := hok w (by simp)
    have hinv : isInvokeOf field (Event.invoke field idx value) = true := by
      simp [isInvokeOf]
    simp only [runChain, hw, List.singleton_append, List.countP_cons,
      List.length_cons]
    rw [ih (idx + 1) (fun u hu => hok u (by simp [hu]))]
    simp [hinv, hlk]

/-! ### Registry construction lemmas -/

/-- Effect of `add_validator` on lookups: the touched selector's sequence
gains `v` at its end (an absent selector starts from the empty sequence), all
other selectors are untouched. -/
lemma lookupSeq_addValidator {E : Type} (m : Registry E) (k : HttpField)
    (v : Validator E) (q : HttpField) :
    lookupSeq (addValidator m k v) q =
      if q = k then some ((lookupSeq m k).getD [] ++ [v])
      else lookupSeq m q := by
  induction m with
  | nil =>
    by_cases hq : q = k
    · subst hq
      simp [addValidator, lookupSeq]
    · simp [addValidator, lookupSeq, hq, Ne.symm hq]
  | cons entry rest ih =>
    obtain ⟨k3, vs⟩ := entry
    by_cases h3 : k3 = k
    · subst h3
      by_cases hq : q = k3
      · subst hq
        simp [addValidator, lookupSeq]
      · simp [addValidator, lookupSeq, hq, Ne.symm hq]
    · by_cases hq : k3 = q
      · subst hq
        simp [addValidator, lookupSeq, h3, Ne.symm h3, ih]
      · simp [addValidator, lookupSeq, h3, hq, ih]

/-- `seqOf` version of `lookupSeq_addValidator`. -/
lemma seqOf_addValidator {E : Type} (m : Registry E) (k : HttpField)
    (v : Validator E) (q : HttpField) :
    seqOf (addValidator m k v) q =
      if q = k then seqOf m q ++ [v] else seqOf m q := by
  by_cases hq : q = k
  · subst hq
    simp [seqOf, lookupSeq_addValidator]
  · simp [seqOf, lookupSeq_addValidator, hq]

/-- The bulk loop of `with_validators` is the sequential iteration of
`add_validator` over the entries. -/
lemma withValidators_eq_addAll {E : Type} :
    ∀ (entries : List (HttpField × Validator E)) (m : Registry E),
      withValidators m entries = addAll m entries := by
  intro entries
  induction entries with
  | nil => intro m; rfl
  | cons kv rest ih =>
    intro m
    have h1 : withValidators m (kv :: rest) =
        withValidators (addValidator m kv.1 kv.2) rest := rfl
    rw [h1, ih, addAll]

/-- Lookup characterization of `with_validators`: each selector's sequence is
its old sequence followed by the added validators for that selector in entry
order. -/
lemma seqOf_withValidators {E : Type} :
    ∀ (entries : List (HttpField × Validator E)) (m : Registry E)
      (q : HttpField),
      seqOf (withValidators m entries) q =
        seqOf m q ++
          (entries.filter (fun kv => decide (kv.1 = q))).map Prod.snd := by
  intro entries
  induction entries with
  | nil => intro m q; simp [withValidators]
  | cons kv rest ih =>
    intro m q
    have h1 : withValidators m (kv :: rest) =
        withValidators (addValidator m kv.1 kv.2) rest := rfl
    rw [h1, ih, seqOf_addValidator]
    by_cases hq : kv.1 = q
    · rw [if_pos hq.symm]
      simp [List.filter_cons, hq]
    · rw [if_neg (Ne.symm hq)]
      simp [List.filter_cons, hq]

/-- Core of the first-failure claims: when every validator of the earlier
entries accepts (`hpre`), the chain of `field` has a first failing validator
`v`, and (for a query selector) the decoded mapping is available, `handle`
returns the failure response built from `v`'s error, its trace extends the
earlier trace only by this selector's events, and control never reaches the
next stage. -/
lemma handle_first_failure {E : Type} (ser : E → Except String String)
    (req : Request) (next : Request → Response) (pre post : Registry E)
    (field : HttpField) (vs1 vs2 : List (Validator E)) (v : Validator E)
    (cache2 : Option QMap) (evs0 : List Event) (e : E)
    (hpre : handleLoop ser req pre none = (Except.ok cache2, evs0))
    (hq : ∀ n, field = HttpField.QueryParam n →
      ∃ qps, cacheSource cache2 req = Except.ok qps)
    (hok : ∀ w ∈ vs1,
      w field.name (extractValue req cache2 field) = Except.ok ())
    (hfail : v field.name (extractValue req cache2 field) = Except.error e) :
    ∃ evs1, handle ser (pre ++ (field, vs1 ++ v :: vs2) :: post) req next =
        (failureResponse ser field e, evs0 ++ evs1) ∧
      (∀ f k val, Event.invoke f k val ∈ evs1 →
        f = field ∧ k ≤ vs1.length) ∧
      Event.runNext ∉ evs1 := by
  obtain ⟨evs1, hrun, hchar⟩ :=
    handleLoop_cons_failure ser vs2 post hq hok hfail
  have hsplit := handleLoop_append_ok pre none cache2 evs0
    ((field, vs1 ++ v :: vs2) :: post) hpre
  have hloopfull : handleLoop ser req
      (pre ++ (field, vs1 ++ v :: vs2) :: post) none =
      (Except.error (failureResponse ser field e), evs0 ++ evs1) := by
    rw [hsplit, hrun]
  refine ⟨evs1, by simp only [handle, hloopfull], ?_, ?_⟩
  · exact fun f k val hm => ⟨(hchar f k val hm).1, (hchar f k val hm).2.1⟩
  · intro hm
    have hm2 : Event.runNext ∈
        (handleLoop ser req ((field, vs1 ++ v :: vs2) :: post) cache2).2 := by
      rw [hrun]
      exact hm
    exact (handleLoop_events ((field, vs1 ++ v :: vs2) :: post) cache2
      Event.runNext hm2).1 rfl

/-! ### The claims -/

/-- Claim C1: when the validators of all earlier selectors accept and the
`vs1.length`-th validator of `field`'s chain is the first of that chain to
fail (with error `e`, serialized to `body`), `handle` answers 400 with the
serialized error as body, no validator of `field` beyond the failing one is
invoked, no selector other than `field` and the earlier ones is ever invoked,
and the next pipeline stage never runs. -/
theorem first_failing_validator_short_circuits {E : Type}
    (ser : E → Except String String) (req : Request) (next : Request → Response)
    (pre post : Registry E) (field : HttpField) (vs1 vs2 : List (Validator E))
    (v : Validator E) (cache2 : Option QMap) (evs0 : List Event) (e : E)
    (body : String)
    (hnodup : ((pre ++ (field, vs1 ++ v :: vs2) :: post).map Prod.fst).Nodup)
    (hpre : handleLoop ser req pre none = (Except.ok cache2, evs0))
    (hq : ∀ n, field = HttpField.QueryParam n →
      ∃ qps, cacheSource cache2 req = Except.ok qps)
    (hok : ∀ w ∈ vs1,
      w field.name (extractValue req cache2 field) = Except.ok ())
    (hfail : v field.name (extractValue req cache2 field) = Except.error e)
    (hser : ser e = Except.ok body) :
    (handle ser (pre ++ (field, vs1 ++ v :: vs2) :: post) req next).1 =
        { status := 400, body := body } ∧
      (∀ k val, Event.invoke field k val ∈
          (handle ser (pre ++ (field, vs1 ++ v :: vs2) :: post) req next).2 →
        k ≤ vs1.length) ∧
      (∀ f k val, Event.invoke f k val ∈
          (handle ser (pre ++ (field, vs1 ++ v :: vs2) :: post) req next).2 →
        f = field ∨ f ∈ pre.map Prod.fst) ∧
      Event.runNext ∉
        (handle ser (pre ++ (field, vs1 ++ v :: vs2) :: post) req next).2 := by
  obtain ⟨evs1, hh, hchar, hrn⟩ := handle_first_failure ser req next pre post
    field vs1 vs2 v cache2 evs0 e hpre hq hok hfail
  have hfnp : field ∉ pre.map Prod.fst := by
    intro hmem
    rw [List.map_append] at hnodup
    exact (List.nodup_append.mp hnodup).2.2 hmem (by simp)
  refine ⟨?_, ?_, ?_, ?_⟩
  · rw [hh]
    simp [failureResponse, hser]
  · intro k val hm
    rw [hh] at hm
    rcases List.mem_append.mp hm with hm | hm
    · exact absurd ((handleLoop_events pre none _
        (by rw [hpre]; exact hm)).2 field k val rfl) hfnp
    · exact (hchar field k val hm).2
  · intro f k val hm
    rw [hh] at hm
    rcases List.mem_append.mp hm with hm | hm
    · exact Or.inr ((handleLoop_events pre none _
        (by rw [hpre]; exact hm)).2 f k val rfl)
    · exact Or.inl (hchar f k val hm).1
  · intro hm
    rw [hh] at hm
    rcases List.mem_append.mp hm with hm | hm
    · exact (handleLoop_events pre none _ (by rw [hpre]; exact hm)).1 rfl
    · exact hrn hm

/-- Claim C1 witness: a registry with one always-failing path-parameter
validator yields the 400 response with the serialized error as body. -/
theorem first_failing_validator_short_circuits_witness :
    (handle serId [(HttpField.Param "a", [vFail])] reqA nextOk).1 =
      { status := 400, body := "bad" } :=
  (first_failing_validator_short_circuits serId reqA nextOk [] []
    (HttpField.Param "a") [] [] vFail none [] "bad" "bad"
    (by simp) rfl (fun n h => HttpField.noConfusion h) (by simp) rfl rfl).1

/-- Claim C2 counterexample: the claim quantifies over every registry
("regardless of what validators are registered"), but with no query-parameter
selector registered the query string is never decoded — a request whose query
string fails to decode passes through with the downstream 200 response, not a
500. -/
theorem query_decode_failure_not_unconditional :
    reqBadQuery.queryResult = Except.error "decode failure" ∧
      (handle serId ([] : Registry String) reqBadQuery nextOk).1 =
        { status := 200, body := "downstream" } ∧
      (handle serId ([] : Registry String) reqBadQuery nextOk).1.status ≠ 500 :=
  ⟨rfl, rfl, by decide⟩

/-- Claim C2 (amended): when a query-parameter selector is reached with the
cache still unpopulated (all earlier selectors' validators accepted) and the
query string fails to decode, `handle` answers 500 with the diagnostic body
`"cannot read query parameters: ..."`, and no validator of that selector is
invoked. -/
theorem query_decode_failure_500 {E : Type}
    (ser : E → Except String String) (req : Request) (next : Request → Response)
    (pre post : Registry E) (nm : String) (vs : List (Validator E))
    (evs0 : List Event) (err : String)
    (hnodup : ((pre ++ (HttpField.QueryParam nm, vs) :: post).map
      Prod.fst).Nodup)
    (hpre : handleLoop ser req pre none = (Except.ok none, evs0))
    (hqr : req.queryResult = Except.error err) :
    (handle ser (pre ++ (HttpField.QueryParam nm, vs) :: post) req next).1 =
        { status := 500, body := "cannot read query parameters: " ++ err } ∧
      ∀ k val, Event.invoke (HttpField.QueryParam nm) k val ∉
        (handle ser (pre ++ (HttpField.QueryParam nm, vs) :: post) req next).2 := by
  have hcs : cacheStep none req (HttpField.QueryParam nm) =
      (Except.error err, [Event.queryDecode]) := by
    simp [cacheStep, hqr]
  have herr : handleLoop ser req ((HttpField.QueryParam nm, vs) :: post) none =
      (Except.error
        { status := 500, body := "cannot read query parameters: " ++ err },
       [Event.queryDecode]) := handleLoop_cons_err hcs
  have hsplit := handleLoop_append_ok pre none none evs0
    ((HttpField.QueryParam nm, vs) :: post) hpre
  have hloopfull : handleLoop ser req
      (pre ++ (HttpField.QueryParam nm, vs) :: post) none =
      (Except.error
        { status := 500, body := "cannot read query parameters: " ++ err },
       evs0 ++ [Event.queryDecode]) := by
    rw [hsplit, herr]
  have hh : handle ser (pre ++ (HttpField.QueryParam nm, vs) :: post) req next =
      ({ status := 500, body := "cannot read query parameters: " ++ err },
       evs0 ++ [Event.queryDecode]) := by
    simp only [handle, hloopfull]
  have hfnp : HttpField.QueryParam nm ∉ pre.map Prod.fst := by
    intro hmem
    rw [List.map_append] at hnodup
    exact (List.nodup_append.mp hnodup).2.2 hmem (by simp)
  refine ⟨by rw [hh], ?_⟩
  intro k val hm
  rw [hh] at hm
  rcases List.mem_append.mp hm with hm | hm
  · exact hfnp ((handleLoop_events pre none _
      (by rw [hpre]; exact hm)).2 _ k val rfl)
  · simp at hm

/-- Claim C2 witness (for the amended claim): a single registered
query-parameter selector on a request with an undecodable query string. -/
theorem query_decode_failure_500_witness :
    (handle serId [(HttpField.QueryParam "x", [vOk])] reqBadQuery nextOk).1 =
      { status := 500
        body := "cannot read query parameters: " ++ "decode failure" } :=
  (query_decode_failure_500 serId reqBadQuery nextOk [] [] "x" [vOk] []
    "decode failure" (by simp) rfl rfl).1

/-- Claim C3: for a path-parameter selector whose extraction fails, or a
header or cookie selector absent from the request, the dispatcher hands
`none` to every validator it invokes, completes the entry without aborting
whenever all its validators accept `none`, and any failure response it
produces is the failure response of one of the entry's own validators
rejecting `none`. -/
theorem absent_field_handed_none {E : Type} (ser : E → Except String String)
    (req : Request) (field : HttpField) (vs : List (Validator E))
    (cache : Option QMap)
    (hkind :
      (∃ n err, field = HttpField.Param n ∧ req.param n = Except.error err) ∨
      (∃ n, field = HttpField.Header n ∧ req.header n = none) ∨
      (∃ n, field = HttpField.Cookie n ∧ req.cookie n = none)) :
    (∀ f k val,
        Event.invoke f k val ∈ (handleLoop ser req [(field, vs)] cache).2 →
        val = none) ∧
      ((∀ w ∈ vs, w field.name none = Except.ok ()) →
        (handleLoop ser req [(field, vs)] cache).1 = Except.ok cache) ∧
      (∀ resp evs,
        handleLoop ser req [(field, vs)] cache = (Except.error resp, evs) →
        ∃ e, (∃ w, w ∈ vs ∧ w field.name none = Except.error e) ∧
          resp = failureResponse ser field e) := by
  have hval : extractValue req cache field = none := by
    rcases hkind with ⟨n, err, hf, hp⟩ | ⟨n, hf, hp⟩ | ⟨n, hf, hp⟩ <;>
      subst hf <;> simp [extractValue, hp, Except.toOption]
  have hcs : cacheStep cache req field = (Except.ok cache, []) := by
    rcases hkind with ⟨n, err, hf, hp⟩ | ⟨n, hf, hp⟩ | ⟨n, hf, hp⟩ <;>
      subst hf <;> rfl
  rcases hrc : runChain field [lkEv field] (extractValue req cache field) vs 0
    with ⟨o, evs2⟩
  refine ⟨?_, ?_, ?_⟩
  · intro f k val hm
    have hm2 : Event.invoke f k val ∈ evs2 := by
      cases o with
      | some e =>
        rw [handleLoop_cons_fail hcs hrc] at hm
        simpa using hm
      | none =>
        rw [handleLoop_cons_ok hcs hrc] at hm
        simp only [handleLoop, List.nil_append, List.append_nil] at hm
        simpa using hm
    rcases runChain_events_simple hrc hm2 with he | ⟨k2, he⟩
    · exact absurd he.symm (lkEv_ne_invoke field f k val)
    · simp only [Event.invoke.injEq] at he
      rw [he.2.2, hval]
  · intro hall
    have hall2 : ∀ w ∈ vs,
        w field.name (extractValue req cache field) = Except.ok () := by
      intro w hw
      rw [hval]
      exact hall w hw
    have ho : (runChain field [lkEv field]
        (extractValue req cache field) vs 0).1 = none :=
      runChain_all_ok vs 0 hall2
    rw [hrc] at ho
    simp only at ho
    subst ho
    rw [handleLoop_cons_ok hcs hrc]
    simp [handleLoop]
  · intro resp evs hres
    cases o with
    | none =>
      rw [handleLoop_cons_ok hcs hrc] at hres
      simp [handleLoop] at hres
    | some e =>
      rw [handleLoop_cons_fail hcs hrc] at hres
      simp only [Prod.mk.injEq, Except.error.injEq, List.nil_append] at hres
      obtain ⟨h1, h2⟩ := hres
      have ho2 : (runChain field [lkEv field]
          (extractValue req cache field) vs 0).1 = some e := by
        rw [hrc]
      obtain ⟨w, hw, hwe⟩ := runChain_error_mem vs 0 e ho2
      rw [hval] at hwe
      exact ⟨e, ⟨w, hw, hwe⟩, h1.symm⟩

/-- Claim C3 witness: an absent header with one accepting validator — the
entry completes without aborting. -/
theorem absent_field_handed_none_witness :
    (handleLoop serId reqA [(HttpField.Header "h", [vOk])] none).1 =
      Except.ok none :=
  (absent_field_handed_none serId reqA (HttpField.Header "h") [vOk] none
    (Or.inr (Or.inl ⟨"h", rfl, rfl⟩))).2.1
    (by intro w hw; simp at hw; subst hw; rfl)

/-- Claim C4 counterexample: the registry `cregC4` contains two
query-parameter selectors, yet on a request whose earlier path-parameter
validator fails the query string is decoded zero times, not exactly once. -/
theorem query_decoded_exactly_once_counterexample :
    cregC4.countP (fun en => isQuerySelector en.1) = 2 ∧
      (handle serId cregC4 reqA nextOk).2.countP
        (fun ev => decide (ev = Event.queryDecode)) = 0 :=
  ⟨rfl, rfl⟩

/-- Claim C4 (amended): for every registry and request the query string is
decoded at most once per request — later query-parameter lookups reuse the
cached mapping. -/
theorem query_decoded_at_most_once {E : Type} (ser : E → Except String String)
    (registry : Registry E) (req : Request) (next : Request → Response) :
    (handle ser registry req next).2.countP
      (fun ev => decide (ev = Event.queryDecode)) ≤ 1 := by
  have h : (handleLoop ser req registry none).2.countP
      (fun ev => decide (ev = Event.queryDecode)) ≤
      (if (none : Option QMap).isSome then 0 else 1) :=
    handleLoop_queryDecode_count registry none
  simp only [Option.isSome_none] at h
  rcases hl : handleLoop ser req registry none with ⟨r, evs⟩
  rw [hl] at h
  have h1 : evs.countP (fun ev => decide (ev = Event.queryDecode)) ≤ 1 := by
    simpa using h
  cases r with
  | error resp =>
    simp only [handle, hl]
    exact h1
  | ok c =>
    simp only [handle, hl, List.countP_append]
    have h2 : List.countP (fun ev => decide (ev = Event.queryDecode))
        [Event.runNext] = 0 := by decide
    rw [h2]
    simpa using h1

/-- Claim C5: `add_validator` appends the new validator at the end of the
selector's existing sequence, creates a singleton sequence for a new
selector, and leaves every other selector's sequence unchanged. -/
theorem add_validator_appends_or_creates {E : Type} (m : Registry E)
    (k : HttpField) (v : Validator E) (q : HttpField) :
    lookupSeq (addValidator m k v) q =
      if q = k then some ((lookupSeq m k).getD [] ++ [v])
      else lookupSeq m q :=
  lookupSeq_addValidator m k v q

/-- Claim C6: with an empty registry, `handle` delegates to the next stage on
the unmodified request and returns its response unchanged. -/
theorem empty_registry_passthrough {E : Type} (ser : E → Except String String)
    (req : Request) (next : Request → Response) :
    handle ser ([] : Registry E) req next = (next req, [Event.runNext]) := rfl

/-- Claim C7: when the first failing validator's error serializes
successfully, the response has status 400 and its body decodes back to the
original error value, for any decoder that inverts the serializer. -/
theorem validator_error_roundtrip {E : Type}
    (ser : E → Except String String) (de : String → Option E) (req : Request)
    (next : Request → Response) (pre post : Registry E) (field : HttpField)
    (vs1 vs2 : List (Validator E)) (v : Validator E) (cache2 : Option QMap)
    (evs0 : List Event) (e : E) (body : String)
    (hrt : ∀ x s, ser x = Except.ok s → de s = some x)
    (hpre : handleLoop ser req pre none = (Except.ok cache2, evs0))
    (hq : ∀ n, field = HttpField.QueryParam n →
      ∃ qps, cacheSource cache2 req = Except.ok qps)
    (hok : ∀ w ∈ vs1,
      w field.name (extractValue req cache2 field) = Except.ok ())
    (hfail : v field.name (extractValue req cache2 field) = Except.error e)
    (hser : ser e = Except.ok body) :
    (handle ser (pre ++ (field, vs1 ++ v :: vs2) :: post) req next).1.status
        = 400 ∧
      de ((handle ser (pre ++ (field, vs1 ++ v :: vs2) :: post)
        req next).1.body) = some e := by
  obtain ⟨evs1, hh, hchar, hrn⟩ := handle_first_failure ser req next pre post
    field vs1 vs2 v cache2 evs0 e hpre hq hok hfail
  constructor
  · rw [hh]
    simp [failureResponse, hser]
  · rw [hh]
    simp only [failureResponse, hser]
    exact hrt e body hser

/-- Claim C7 witness: identity serializer and decoder on `String` errors. -/
theorem validator_error_roundtrip_witness :
    (handle serId [(HttpField.Param "a", [vFail])] reqA nextOk).1.status
        = 400 ∧
      Option.some
        ((handle serId [(HttpField.Param "a", [vFail])] reqA nextOk).1.body) =
        some "bad" :=
  validator_error_roundtrip serId Option.some reqA nextOk [] []
    (HttpField.Param "a") [] [] vFail none [] "bad" "bad"
    (fun x s h => by injection h with h2; rw [h2])
    rfl (fun n h => HttpField.noConfusion h) (by simp) rfl rfl

/-- Claim C8: when the first failing validator's error fails to serialize,
the response is a 500 whose plain-text body names the selector (kind word and
name) and the serialization failure. -/
theorem error_serialization_failure_500 {E : Type}
    (ser : E → Except String String) (req : Request) (next : Request → Response)
    (pre post : Registry E) (field : HttpField) (vs1 vs2 : List (Validator E))
    (v : Validator E) (cache2 : Option QMap) (evs0 : List Event) (e : E)
    (err : String)
    (hpre : handleLoop ser req pre none = (Except.ok cache2, evs0))
    (hq : ∀ n, field = HttpField.QueryParam n →
      ∃ qps, cacheSource cache2 req = Except.ok qps)
    (hok : ∀ w ∈ vs1,
      w field.name (extractValue req cache2 field) = Except.ok ())
    (hfail : v field.name (extractValue req cache2 field) = Except.error e)
    (hser : ser e = Except.error err) :
    (handle ser (pre ++ (field, vs1 ++ v :: vs2) :: post) req next).1 =
      { status := 500
        body := "cannot serialize your " ++ kindWord field ++
          " validator for '" ++ field.name ++ "' error : " ++ err } := by
  obtain ⟨evs1, hh, hchar, hrn⟩ := handle_first_failure ser req next pre post
    field vs1 vs2 v cache2 evs0 e hpre hq hok hfail
  rw [hh]
  simp [failureResponse, hser]

/-- Claim C8 witness: a failing serializer on a failing path-parameter
validator yields the diagnostic 500. -/
theorem error_serialization_failure_500_witness :
    (handle serFail [(HttpField.Param "a", [vFail])] reqA nextOk).1 =
      { status := 500
        body := "cannot serialize your " ++ kindWord (HttpField.Param "a") ++
          " validator for '" ++ (HttpField.Param "a").name ++ "' error : "
          ++ "nope" } :=
  error_serialization_failure_500 serFail reqA nextOk [] []
    (HttpField.Param "a") [] [] vFail none [] "bad" "nope"
    rfl (fun n h => HttpField.noConfusion h) (by simp) rfl rfl

/-- Claim C9: `with_validators` equals the sequential per-entry application
of `add_validator` and (hence) extends each selector's sequence with exactly
the entries registered for it, in entry order. -/
theorem with_validators_bulk_add {E : Type} (m : Registry E)
    (entries : List (HttpField × Validator E)) :
    withValidators m entries = addAll m entries ∧
      ∀ q, seqOf (withValidators m entries) q =
        seqOf m q ++
          (entries.filter (fun kv => decide (kv.1 = q))).map Prod.snd :=
  ⟨withValidators_eq_addAll entries m,
   fun q => seqOf_withValidators entries m q⟩

/-- Claim C10: for a path-parameter selector whose validators all accept, the
parameter is looked up once per validator invocation — `n` lookups and `n`
invocations for `n` validators, with no per-request caching. -/
theorem param_lookup_per_invocation {E : Type} (ser : E → Except String String)
    (req : Request) (nm : String) (vs : List (Validator E))
    (next : Request → Response)
    (hok : ∀ w ∈ vs, w nm (req.param nm).toOption = Except.ok ()) :
    (handle ser [(HttpField.Param nm, vs)] req next).2.countP
        (fun ev => decide (ev = Event.paramLookup nm)) = vs.length ∧
      (handle ser [(HttpField.Param nm, vs)] req next).2.countP
        (isInvokeOf (HttpField.Param nm)) = vs.length := by
  have hok2 : ∀ w ∈ vs, w (HttpField.Param nm).name
      (extractValue req none (HttpField.Param nm)) = Except.ok () := hok
  rcases hrc : runChain (HttpField.Param nm) [lkEv (HttpField.Param nm)]
      (extractValue req none (HttpField.Param nm)) vs 0 with ⟨o, evs2⟩
  have ho : (runChain (HttpField.Param nm) [lkEv (HttpField.Param nm)]
      (extractValue req none (HttpField.Param nm)) vs 0).1 = none :=
    runChain_all_ok vs 0 hok2
  rw [hrc] at ho
  simp only at ho
  subst ho
  have hrc2 : runChain (HttpField.Param nm) [Event.paramLookup nm]
      (req.param nm).toOption vs 0 = (none, evs2) := hrc
  have htr : handle ser [(HttpField.Param nm, vs)] req next =
      (next req, evs2 ++ [Event.runNext]) := by
    simp [handle, handleLoop, hrc2]
  have hc1 : evs2.countP
      (fun ev => decide (ev = Event.paramLookup nm)) = vs.length := by
    have h := runChain_count_lookup
      (lkEv_ne_invoke (HttpField.Param nm)) vs 0 hok2
    rw [hrc] at h
    exact h
  have hc2 : evs2.countP (isInvokeOf (HttpField.Param nm)) = vs.length := by
    have hlk : isInvokeOf (HttpField.Param nm)
        (lkEv (HttpField.Param nm)) = false := by
      simp [isInvokeOf, lkEv]
    have h := runChain_count_invoke hlk vs 0 hok2
    rw [hrc] at h
    exact h
  constructor
  · rw [htr, List.countP_append, hc1]
    have h2 : List.countP (fun ev => decide (ev = Event.paramLookup nm))
        [Event.runNext] = 0 := by
      simp [List.countP_cons]
    rw [h2]
    omega
  · rw [htr, List.countP_append, hc2]
    have h2 : List.countP (isInvokeOf (HttpField.Param nm))
        [Event.runNext] = 0 := by
      simp [List.countP_cons, isInvokeOf]
    rw [h2]
    omega

/-- Claim C10 witness: two accepting validators on a path parameter give two
lookups and two invocations. -/
theorem param_lookup_per_invocation_witness :
    (handle serId [(HttpField.Param "a", [vOk, vOk])] reqA nextOk).2.countP
        (fun ev => decide (ev = Event.paramLookup "a")) = 2 ∧
      (handle serId [(HttpField.Param "a", [vOk, vOk])] reqA nextOk).2.countP
        (isInvokeOf (HttpField.Param "a")) = 2 :=
  param_lookup_per_invocation serId reqA "a" [vOk, vOk] nextOk
    (by intro w hw; simp at hw; subst hw; rfl)

end TideValidator
